import Mathlib

/-!
Verification of the sequence producers and driver of tr-nums.py.

The program builds two lazy generators over exact rationals: inv_tr_nums(d)
yields, for n = 1, 2, 3, ..., the reciprocal of the rational obtained from the
floating-point gamma quotient gamma(n+d) / (gamma(n) * gamma(d+1)); and
inv_gap_nums(d) yields the running sums of those values starting from an
accumulator of -1. A driver prints the first ten values of four instances,
separated by literal lines of three dashes.

The generators are embedded as explicit state machines (state plus a step
function returning the yielded value and the next state), and the driver as
the list of lines it prints.
-/

namespace TrNums

/-- Modelled from the spec: the gamma evaluator (scipy.special.gamma) is an
external collaborator absent from the source, which the spec treats as an
opaque, already-correct numeric primitive returning gamma(x) for x > 0. For
positive integer n and d, the quotient gamma(n+d) / (gamma(n) * gamma(d+1))
equals the generalized binomial coefficient C(n+d-1, d) (spec section 4.1
design rationale), so the exact rational obtained from it by Fraction is that
binomial coefficient. -/
def gamma_quot (d n : ℕ) : ℚ := (Nat.choose (n + d - 1) d : ℚ)

/-- The value produced by one step of inv_tr_nums at index n (source line 14):
1 / Fraction(gamma(n + d) / (gamma(n) * gamma(d + 1))). -/
def inv_tr_term (d n : ℕ) : ℚ := 1 / gamma_quot d n

/-- The state of one inv_tr_nums generator instance: its dimension parameter d
and its current index n. -/
structure TrState where
  d : ℕ
  n : ℕ

/-- The initial state of inv_tr_nums(d): the index n starts at 1
(source line 11). -/
def tr_init (d : ℕ) : TrState := ⟨d, 1⟩

/-- One production step of inv_tr_nums: yield the term at the current index
and increment the index by 1 (source lines 12-15). -/
def tr_step (s : TrState) : ℚ × TrState :=
  (inv_tr_term s.d s.n, ⟨s.d, s.n + 1⟩)

/-- Consume k values from an inv_tr_nums generator in state s, returning the
yielded values in order together with the final state (islice consumption). -/
def tr_run : ℕ → TrState → List ℚ × TrState
  | 0, s => ([], s)
  | k + 1, s => ((tr_step s).1 :: (tr_run k (tr_step s).2).1, (tr_run k (tr_step s).2).2)

/-- The first N values yielded by a fresh inv_tr_nums(d) generator
(source lines 10-15). -/
def inv_tr_nums (d N : ℕ) : List ℚ := (tr_run N (tr_init d)).1

/-- The state of an inv_tr_nums(d) generator after k production steps. -/
def tr_state_after (d : ℕ) : ℕ → TrState
  | 0 => tr_init d
  | k + 1 => (tr_step (tr_state_after d k)).2

/-- The k-th value (1-indexed) yielded by inv_tr_nums(d). -/
def tr_yield (d k : ℕ) : ℚ := (tr_step (tr_state_after d (k - 1))).1

/-- The state of one inv_gap_nums generator instance: its accumulator x and
the state of the inv_tr_nums generator it owns (source lines 19-20). -/
structure GapState where
  x : ℚ
  inner : TrState

/-- The initial state of inv_gap_nums(d): the accumulator x starts at -1 and
a fresh inv_tr_nums(d) generator is created (source lines 19-20). -/
def gap_init (d : ℕ) : GapState := ⟨-1, tr_init d⟩

/-- One production step of inv_gap_nums: pull the next value from the owned
inv_tr_nums generator, add it to the accumulator, and yield the new
accumulator value (source lines 21-23). -/
def gap_step (s : GapState) : ℚ × GapState :=
  (s.x + (tr_step s.inner).1, ⟨s.x + (tr_step s.inner).1, (tr_step s.inner).2⟩)

/-- Consume k values from an inv_gap_nums generator in state s, returning the
yielded values in order together with the final state. -/
def gap_run : ℕ → GapState → List ℚ × GapState
  | 0, s => ([], s)
  | k + 1, s => ((gap_step s).1 :: (gap_run k (gap_step s).2).1, (gap_run k (gap_step s).2).2)

/-- The first N values yielded by a fresh inv_gap_nums(d) generator
(source lines 18-23). -/
def inv_gap_nums (d N : ℕ) : List ℚ := (gap_run N (gap_init d)).1

/-- The state of an inv_gap_nums(d) generator after k production steps. -/
def gap_state_after (d : ℕ) : ℕ → GapState
  | 0 => gap_init d
  | k + 1 => (gap_step (gap_state_after d k)).2

/-- The k-th value (1-indexed) yielded by inv_gap_nums(d). -/
def gap_yield (d k : ℕ) : ℚ := (gap_step (gap_state_after d (k - 1))).1

/-- One printed line of the driver: either the textual representation of one
rational value (print(num) at source lines 30, 35, 40 and 45) or the literal
separator line of three dashes (source lines 32, 37 and 42). -/
inductive Line where
  | value (q : ℚ)
  | sep
  deriving DecidableEq

/-- The number of values the driver consumes from each sequence
(source line 26). -/
def N : ℕ := 10

/-- The lines printed by the driver (source lines 26-45): the first ten values
of inv_tr_nums(2) (the default d), a separator line, the first ten values of
inv_tr_nums(3), a separator line, the first ten values of inv_gap_nums(2), a
separator line, and the first ten values of inv_gap_nums(3). -/
def driver_output : List Line :=
  (inv_tr_nums 2 N).map Line.value ++ [Line.sep] ++
  (inv_tr_nums 3 N).map Line.value ++ [Line.sep] ++
  (inv_gap_nums 2 N).map Line.value ++ [Line.sep] ++
  (inv_gap_nums 3 N).map Line.value

theorem tr_state_after_eq (d k : ℕ) : tr_state_after d k = ⟨d, k + 1⟩ := by
  induction k with
  | zero => rfl
  | succ k ih => simp [tr_state_after, ih, tr_step]

theorem tr_yield_eq (d k : ℕ) (hk : 1 ≤ k) : tr_yield d k = inv_tr_term d k := by
  unfold tr_yield
  rw [tr_state_after_eq]
  show inv_tr_term d (k - 1 + 1) = inv_tr_term d k
  rw [Nat.sub_add_cancel hk]

theorem gap_state_after_eq (d k : ℕ) :
    gap_state_after d k =
      ⟨-1 + ∑ i ∈ Finset.range k, inv_tr_term d (i + 1), ⟨d, k + 1⟩⟩ := by
  induction k with
  | zero => simp [gap_state_after, gap_init, tr_init]
  | succ k ih =>
    have h : (-1 + ∑ i ∈ Finset.range k, inv_tr_term d (i + 1)) + inv_tr_term d (k + 1)
        = -1 + ∑ i ∈ Finset.range (k + 1), inv_tr_term d (i + 1) := by
      rw [Finset.sum_range_succ]
      ring
    show (gap_step (gap_state_after d k)).2 = _
    rw [ih]
    simp only [gap_step, tr_step]
    rw [h]

theorem gap_yield_eq (d k : ℕ) (hk : 1 ≤ k) :
    gap_yield d k = -1 + ∑ i ∈ Finset.range k, inv_tr_term d (i + 1) := by
  obtain ⟨m, rfl⟩ : ∃ m, k = m + 1 := ⟨k - 1, (Nat.succ_pred_eq_of_pos hk).symm⟩
  unfold gap_yield
  rw [Nat.add_sub_cancel, gap_state_after_eq]
  simp only [gap_step, tr_step, Finset.sum_range_succ]
  ring

theorem tr_run_from_state (d M : ℕ) :
    ∀ j, (tr_run M (tr_state_after d j)).1
      = (List.range M).map (fun i => tr_yield d (j + i + 1)) := by
  induction M with
  | zero => intro j; rfl
  | succ M ih =>
    intro j
    show tr_yield d (j + 1) :: (tr_run M (tr_state_after d (j + 1))).1
        = (List.range (M + 1)).map (fun i => tr_yield d (j + i + 1))
    have htail : (List.range M).map (fun i => tr_yield d (j + 1 + i + 1))
        = (List.range M).map ((fun i => tr_yield d (j + i + 1)) ∘ Nat.succ) := by
      refine List.map_congr_left (fun i _ => ?_)
      show tr_yield d (j + 1 + i + 1) = tr_yield d (j + (i + 1) + 1)
      congr 1
      omega
    rw [ih (j + 1), htail, List.range_succ_eq_map, List.map_cons, List.map_map]

theorem gap_run_from_state (d M : ℕ) :
    ∀ j, (gap_run M (gap_state_after d j)).1
      = (List.range M).map (fun i => gap_yield d (j + i + 1)) := by
  induction M with
  | zero => intro j; rfl
  | succ M ih =>
    intro j
    show gap_yield d (j + 1) :: (gap_run M (gap_state_after d (j + 1))).1
        = (List.range (M + 1)).map (fun i => gap_yield d (j + i + 1))
    have htail : (List.range M).map (fun i => gap_yield d (j + 1 + i + 1))
        = (List.range M).map ((fun i => gap_yield d (j + i + 1)) ∘ Nat.succ) := by
      refine List.map_congr_left (fun i _ => ?_)
      show gap_yield d (j + 1 + i + 1) = gap_yield d (j + (i + 1) + 1)
      congr 1
      omega
    rw [ih (j + 1), htail, List.range_succ_eq_map, List.map_cons, List.map_map]

theorem inv_tr_nums_eq_map (d M : ℕ) :
    inv_tr_nums d M = (List.range M).map (fun i => tr_yield d (i + 1)) := by
  have h := tr_run_from_state d M 0
  simp only [Nat.zero_add] at h
  exact h

theorem inv_gap_nums_eq_map (d M : ℕ) :
    inv_gap_nums d M = (List.range M).map (fun i => gap_yield d (i + 1)) := by
  have h := gap_run_from_state d M 0
  simp only [Nat.zero_add] at h
  exact h

theorem gap_yield_two_formula (k : ℕ) (hk : 1 ≤ k) :
    gap_yield 2 k = 1 - 2 / ((k : ℚ) + 1) := by
  induction k with
  | zero => exact absurd hk (by norm_num)
  | succ k ih =>
    rcases Nat.eq_zero_or_pos k with h0 | hpos
    · subst h0
      show gap_yield 2 1 = _
      rw [gap_yield_eq 2 1 (by omega)]
      have hc : Nat.choose 2 2 = 1 := rfl
      norm_num [Finset.sum_range_one, inv_tr_term, gamma_quot, hc]
    · have hrec : gap_yield 2 (k + 1) = gap_yield 2 k + inv_tr_term 2 (k + 1) := by
        rw [gap_yield_eq 2 (k + 1) (by omega), gap_yield_eq 2 k hpos, Finset.sum_range_succ]
        ring
      have he : k + 1 + 2 - 1 = k + 2 := by omega
      have hch : ((k + 2).choose 2 : ℚ) = ((k : ℚ) + 2) * ((k : ℚ) + 1) / 2 := by
        rw [Nat.cast_choose_two]
        push_cast
        ring
      have h1 : ((k : ℚ) + 1) ≠ 0 := by positivity
      have h2 : ((k : ℚ) + 2) ≠ 0 := by positivity
      rw [hrec, ih hpos]
      unfold inv_tr_term gamma_quot
      rw [he, hch]
      push_cast
      field_simp
      ring

theorem count_sep_map_value {α : Type} (f : α → ℚ) (l : List α) :
    (l.map (fun i => Line.value (f i))).count Line.sep = 0 := by
  rw [List.count_eq_zero]
  intro h
  rcases List.mem_map.mp h with ⟨q, _, hq⟩
  simp at hq

theorem inv_gap_two_three_val : inv_gap_nums 2 3 = [0, 1/3, 1/2] := by
  have h1 := gap_yield_two_formula 1 (by norm_num)
  have h2 := gap_yield_two_formula 2 (by norm_num)
  have h3 := gap_yield_two_formula 3 (by norm_num)
  norm_num at h1 h2 h3
  rw [inv_gap_nums_eq_map]
  have hr : List.range 3 = [0, 1, 2] := by decide
  rw [hr]
  simp only [List.map_cons, List.map_nil]
  norm_num [h1, h2, h3]

theorem inv_tr_term_pos (d k : ℕ) (hk : 1 ≤ k) : 0 < inv_tr_term d k := by
  unfold inv_tr_term gamma_quot
  have h : 0 < Nat.choose (k + d - 1) d := Nat.choose_pos (by omega)
  have h2 : (0 : ℚ) < (Nat.choose (k + d - 1) d : ℚ) := by exact_mod_cast h
  exact one_div_pos.mpr h2

/-- C1: for every d >= 1 and n >= 1, the n-th value yielded by inv_tr_nums(d)
equals the rational 1 / C(n+d-1, d), whenever that binomial coefficient is a
positive integer. -/
theorem inv_tr_nums_eq_inv_choose (d n : ℕ) (_hd : 1 ≤ d) (hn : 1 ≤ n)
    (_hpos : 0 < Nat.choose (n + d - 1) d) :
    tr_yield d n = 1 / (Nat.choose (n + d - 1) d : ℚ) := by
  rw [tr_yield_eq d n hn]
  rfl

theorem inv_tr_nums_eq_inv_choose_witness :
    tr_yield 2 4 = 1 / (Nat.choose (4 + 2 - 1) 2 : ℚ) :=
  inv_tr_nums_eq_inv_choose 2 4 (by decide) (by decide) (by decide)

/-- C2: for every d >= 1 and k >= 1, the k-th value yielded by inv_gap_nums(d)
equals -1 plus the sum of the first k values yielded by inv_tr_nums(d),
accumulated left to right from an accumulator initialized to -1. -/
theorem inv_gap_nums_cumsum (d k : ℕ) (hk : 1 ≤ k) :
    gap_yield d k = -1 + ∑ i ∈ Finset.range k, tr_yield d (i + 1) := by
  rw [gap_yield_eq d k hk]
  congr 1
  exact Finset.sum_congr rfl (fun i _ => (tr_yield_eq d (i + 1) (by omega)).symm)

theorem inv_gap_nums_cumsum_witness :
    gap_yield 2 3 = -1 + ∑ i ∈ Finset.range 3, tr_yield 2 (i + 1) :=
  inv_gap_nums_cumsum 2 3 (by decide)

/-- C3 counterexample: the first three values yielded by inv_gap_nums(2) are
not 0, -2/3 and -1/2. -/
theorem gap_first_three_counterexample : inv_gap_nums 2 3 ≠ [0, -2/3, -1/2] := by
  rw [inv_gap_two_three_val]
  intro h
  injection h with hh ht
  injection ht with h2 _
  norm_num at h2

/-- C3 amended: the first three values yielded by inv_gap_nums(2) are, in
order, 0, 1/3 and 1/2. -/
theorem gap_first_three_amended : inv_gap_nums 2 3 = [0, 1/3, 1/2] :=
  inv_gap_two_three_val

/-- C4: the driver prints exactly the first ten values of inv_tr_nums(2),
inv_tr_nums(3), inv_gap_nums(2) and inv_gap_nums(3), in that order, one value
per line, with exactly three separator lines of three dashes, one after each
of the first three blocks and none after the fourth. -/
theorem driver_output_spec :
    driver_output =
      (List.range 10).map (fun i => Line.value (tr_yield 2 (i + 1))) ++ [Line.sep] ++
      (List.range 10).map (fun i => Line.value (tr_yield 3 (i + 1))) ++ [Line.sep] ++
      (List.range 10).map (fun i => Line.value (gap_yield 2 (i + 1))) ++ [Line.sep] ++
      (List.range 10).map (fun i => Line.value (gap_yield 3 (i + 1))) ∧
    driver_output.count Line.sep = 3 ∧
    driver_output.length = 43 ∧
    driver_output.getLast? ≠ some Line.sep := by
  have hmain : driver_output =
      (List.range 10).map (fun i => Line.value (tr_yield 2 (i + 1))) ++ [Line.sep] ++
      (List.range 10).map (fun i => Line.value (tr_yield 3 (i + 1))) ++ [Line.sep] ++
      (List.range 10).map (fun i => Line.value (gap_yield 2 (i + 1))) ++ [Line.sep] ++
      (List.range 10).map (fun i => Line.value (gap_yield 3 (i + 1))) := by
    show (inv_tr_nums 2 10).map Line.value ++ [Line.sep] ++
        (inv_tr_nums 3 10).map Line.value ++ [Line.sep] ++
        (inv_gap_nums 2 10).map Line.value ++ [Line.sep] ++
        (inv_gap_nums 3 10).map Line.value = _
    rw [inv_tr_nums_eq_map, inv_tr_nums_eq_map, inv_gap_nums_eq_map, inv_gap_nums_eq_map,
      List.map_map, List.map_map, List.map_map, List.map_map]
    rfl
  refine ⟨hmain, ?_, ?_, ?_⟩
  · rw [hmain]
    simp [List.count_append, count_sep_map_value]
  · rw [hmain]
    simp
  · rw [hmain]
    rw [List.getLast?_append_of_ne_nil _ (by simp)]
    have hr : List.range 10 = [0, 1, 2, 3, 4, 5, 6, 7, 8, 9] := by decide
    rw [hr]
    simp only [List.map_cons, List.map_nil, List.getLast?_cons_cons, List.getLast?_singleton]
    simp

/-- C6: the first value yielded by inv_tr_nums(1) is 1 and the first value
yielded by inv_gap_nums(1) is 0. -/
theorem first_terms_d1 : tr_yield 1 1 = 1 ∧ gap_yield 1 1 = 0 := by
  have hc : Nat.choose 1 1 = 1 := rfl
  constructor
  · rw [tr_yield_eq 1 1 (by omega)]
    norm_num [inv_tr_term, gamma_quot, hc]
  · rw [gap_yield_eq 1 1 (by omega)]
    norm_num [Finset.sum_range_one, inv_tr_term, gamma_quot, hc]

/-- C7: two independently created instances of the same sequence producer with
the same d, consumed the same number of times, yield identical values. -/
theorem runs_deterministic (d₁ d₂ N₁ N₂ : ℕ) (hd : d₁ = d₂) (hN : N₁ = N₂) :
    inv_tr_nums d₁ N₁ = inv_tr_nums d₂ N₂ ∧
    inv_gap_nums d₁ N₁ = inv_gap_nums d₂ N₂ := by
  subst hd
  subst hN
  exact ⟨rfl, rfl⟩

theorem runs_deterministic_witness :
    inv_tr_nums 2 10 = inv_tr_nums 2 10 ∧ inv_gap_nums 2 10 = inv_gap_nums 2 10 :=
  runs_deterministic 2 2 10 10 rfl rfl

/-- C8: the internal index n of inv_tr_nums(d) starts at 1, increases by
exactly 1 on each production step, and therefore the k-th yielded value is
computed with n = k. -/
theorem index_invariant (d k : ℕ) :
    (tr_state_after d 0).n = 1 ∧
    (tr_state_after d (k + 1)).n = (tr_state_after d k).n + 1 ∧
    (1 ≤ k → tr_yield d k = inv_tr_term d k) := by
  refine ⟨rfl, ?_, fun hk => tr_yield_eq d k hk⟩
  rw [tr_state_after_eq, tr_state_after_eq]

theorem index_invariant_witness :
    (tr_state_after 2 0).n = 1 ∧
    (tr_state_after 2 4).n = (tr_state_after 2 3).n + 1 ∧
    tr_yield 2 3 = inv_tr_term 2 3 :=
  ⟨(index_invariant 2 3).1, (index_invariant 2 3).2.1,
    (index_invariant 2 3).2.2 (by decide)⟩

/-- C9: for every d >= 1, every value yielded by inv_tr_nums(d) is strictly
positive, and consequently the values yielded by inv_gap_nums(d) are strictly
increasing. -/
theorem tr_pos_gap_increasing (d k : ℕ) (_hd : 1 ≤ d) (hk : 1 ≤ k) :
    0 < tr_yield d k ∧ gap_yield d k < gap_yield d (k + 1) := by
  constructor
  · rw [tr_yield_eq d k hk]
    exact inv_tr_term_pos d k hk
  · rw [gap_yield_eq d k hk, gap_yield_eq d (k + 1) (by omega), Finset.sum_range_succ]
    have h := inv_tr_term_pos d (k + 1) (by omega)
    linarith

theorem tr_pos_gap_increasing_witness :
    0 < tr_yield 2 1 ∧ gap_yield 2 1 < gap_yield 2 2 :=
  tr_pos_gap_increasing 2 1 (by decide) (by decide)

/-- C10: for every k from 1 to 10, the k-th value yielded by inv_gap_nums(2)
equals 1 - 2/(k+1), and in particular is strictly less than 1. -/
theorem gap_d2_closed_form (k : ℕ) (h1 : 1 ≤ k) (_h2 : k ≤ 10) :
    gap_yield 2 k = 1 - 2 / ((k : ℚ) + 1) ∧ gap_yield 2 k < 1 := by
  have hf := gap_yield_two_formula k h1
  refine ⟨hf, ?_⟩
  rw [hf]
  have hp : (0 : ℚ) < 2 / ((k : ℚ) + 1) := by positivity
  linarith

theorem gap_d2_closed_form_witness :
    gap_yield 2 3 = 1 - 2 / (((3 : ℕ) : ℚ) + 1) ∧ gap_yield 2 3 < 1 :=
  gap_d2_closed_form 3 (by decide) (by decide)

end TrNums
